import Mathlib

/-!
Verification development for the Brewery package manager (src/main.py).

The Python program is shallowly embedded: pure fragments become Lean
functions, stateful fragments thread explicit state records, network and
filesystem facilities become oracle parameters of an environment record,
and Python exceptions become error values.  Dictionaries are modelled as
association lists with first-match lookup; Python dict assignment keeps
insertion order, which the model reproduces with an order-preserving
insert-or-replace.  Wall-clock instants (time.time, a float) are modelled
as rationals.
-/

/-! ### Association list primitives (model of Python dict / SQLite keyed table) -/

/-- First-match lookup in an association list, as Python dict indexing. -/
def alookup {κ β : Type} [DecidableEq κ] : List (κ × β) → κ → Option β
  | [], _ => none
  | (k, v) :: rest, n => if k = n then some v else alookup rest n

/-- Order-preserving insert-or-replace, as Python dict assignment and
SQLite INSERT OR REPLACE on a primary key. -/
def aset {κ β : Type} [DecidableEq κ] : List (κ × β) → κ → β → List (κ × β)
  | [], k, v => [(k, v)]
  | (k', v') :: rest, k, v => if k' = k then (k, v) :: rest else (k', v') :: aset rest k v

/-- Remove every binding of a key, as Python del / SQLite DELETE WHERE key = ?. -/
def aremove {κ β : Type} [DecidableEq κ] : List (κ × β) → κ → List (κ × β)
  | [], _ => []
  | (k', v') :: rest, k => if k' = k then aremove rest k else (k', v') :: aremove rest k

/-! ### Package metadata records (the JSON fields the program consumes) -/

/-- One entry of bottle.stable.files in the formula JSON. -/
structure Bottle where
  url : String
  sha256 : String
deriving DecidableEq, Repr

/-- The fields of a formula metadata record that src/main.py consumes:
versions.stable, dependencies, and the bottle.stable.files map keyed by
OS-flavor string. -/
structure Formula where
  version : String
  dependencies : List String
  bottleFiles : List (String × Bottle)
deriving DecidableEq, Repr

/-! ### Constants from src/main.py -/

def MAX_PARALLEL_DOWNLOADS : Nat := 5

def CACHE_TTL_HOURS : Int := 6

def REQUEST_TIMEOUT : Nat := 15

def RETRY_ATTEMPTS : Nat := 3

def RETRY_DELAY : Nat := 2

/-! ### MetadataCache (class MetadataCache, src/main.py lines 68-161)

The SQLite table metadata_cache is keyed by package_name and stores the
JSON blob, the cached_at timestamp (REAL, seconds) and ttl_hours
(INTEGER).  The JSON round trip through dumps/loads is assumed faithful,
so the model stores the Formula record directly. -/

/-- One row of the metadata_cache table. -/
structure CacheEntry where
  data : Formula
  cachedAt : Rat
  ttlHours : Int
deriving DecidableEq, Repr

abbrev MetaCache := List (String × CacheEntry)

namespace MetadataCache

/-- MetadataCache.get: return the row iff (now - cached_at) / 3600 < ttl_hours,
deleting the row when it has expired.  Returns the value and the updated
backing store. -/
def get (c : MetaCache) (packageName : String) (now : Rat) : Option Formula × MetaCache :=
  match alookup c packageName with
  | none => (none, c)
  | some e =>
      if (now - e.cachedAt) / 3600 < (e.ttlHours : Rat) then (some e.data, c)
      else (none, aremove c packageName)

/-- MetadataCache.set: INSERT OR REPLACE, recording the current time as
cached_at.  The ttl_hours argument defaults to CACHE_TTL_HOURS at call sites. -/
def set (c : MetaCache) (packageName : String) (data : Formula) (now : Rat)
    (ttlHours : Int) : MetaCache :=
  aset c packageName ⟨data, now, ttlHours⟩

/-- MetadataCache.invalidate: DELETE WHERE package_name = ?. -/
def invalidate (c : MetaCache) (packageName : String) : MetaCache :=
  aremove c packageName

end MetadataCache

/-! ### Brewery._get_api_data (src/main.py lines 294-329)

The network is an oracle mapping the attempt index to the outcome of
requests.get on the formula URL.  The constructors classify the branches
of the Python code: a 200 response with parseable JSON, a 200 response
whose json() call raises, a 404, any other status, a requests.Timeout,
and any other exception (connection failure). -/

inductive NetResponse where
  | ok200 (m : Formula)
  | badJson
  | notFound
  | status (code : Nat)
  | timeout
  | connError
deriving DecidableEq, Repr

/-- Observable outcome of one _get_api_data call: the returned value, how
many HTTP attempts were made, the list of time.sleep durations performed
(in order), and the resulting durable cache. -/
structure ApiRun where
  value : Option Formula
  attempts : Nat
  sleeps : List Nat
  cache : MetaCache
deriving DecidableEq, Repr

/-- Prepend the retry delay unless this was the final attempt
(the Python guard: if attempt < RETRY_ATTEMPTS - 1: time.sleep(RETRY_DELAY)). -/
def withSleep (remaining : Nat) (a : ApiRun) : ApiRun :=
  if remaining = 0 then a else { a with sleeps := RETRY_DELAY :: a.sleeps }

/-- The retry loop of _get_api_data.  i is the attempt index already
executed, remaining the number of loop iterations left.  On 200 the JSON
is stored in the cache with the default TTL; on 404 the function returns
None at once; any other status retries with no sleep; a timeout or other
exception sleeps RETRY_DELAY before the next attempt. -/
def apiAttempts (net : Nat → NetResponse) (name : String) (now : Rat) (c : MetaCache) :
    Nat → Nat → ApiRun
  | i, 0 => ⟨none, i, [], c⟩
  | i, r + 1 =>
      match net i with
      | .ok200 m => ⟨some m, i + 1, [], MetadataCache.set c name m now CACHE_TTL_HOURS⟩
      | .notFound => ⟨none, i + 1, [], c⟩
      | .status _ => apiAttempts net name now c (i + 1) r
      | .badJson => withSleep r (apiAttempts net name now c (i + 1) r)
      | .timeout => withSleep r (apiAttempts net name now c (i + 1) r)
      | .connError => withSleep r (apiAttempts net name now c (i + 1) r)

/-- Brewery._get_api_data: consult the cache unless force_refresh, then run
up to RETRY_ATTEMPTS network attempts.  The cache read may itself delete
an expired row, so the updated store is threaded into the attempt loop. -/
def getApiData (net : Nat → NetResponse) (forceRefresh : Bool) (c : MetaCache)
    (now : Rat) (name : String) : ApiRun :=
  if forceRefresh then apiAttempts net name now c 0 RETRY_ATTEMPTS
  else
    match MetadataCache.get c name now with
    | (some d, c') => ⟨some d, 0, [], c'⟩
    | (none, c') => apiAttempts net name now c' 0 RETRY_ATTEMPTS

/-! ### get_os_flavor (src/main.py lines 48-63) -/

def OS_MAP : List (String × String) :=
  [("26", "tahoe"), ("15", "sequoia"), ("14", "sonoma"), ("13", "ventura"),
   ("12", "monterey"), ("11", "big_sur"), ("10.15", "catalina")]

/-- ASCII lowercasing, as str.lower() on the ASCII outputs of the platform
module. -/
def lowerStr (s : String) : String :=
  String.mk (s.data.map Char.toLower)

/-- platform.mac_ver()[0].split(".")[0]: the characters before the first
dot (the whole string when there is no dot). -/
def majorOf (ver : String) : String :=
  String.mk (ver.data.takeWhile (fun c => c ≠ '.'))

/-- get_os_flavor, with the platform module's three observations as inputs:
platform.system(), platform.machine(), and platform.mac_ver()[0].
The unsupported-platform case raises OSError, modelled as Except.error. -/
def get_os_flavor (system machine macVer : String) : Except String String :=
  let sys := lowerStr system
  let mach := lowerStr machine
  if sys = "linux" then .ok "x86_64_linux"
  else if sys = "darwin" then
    let arch := if mach = "arm64" then "arm64" else "x86_64"
    let name := (alookup OS_MAP (majorOf macVer)).getD "ventura"
    .ok (arch ++ "_" ++ name)
  else .error "Unsupported Operating System"

/-! ### Brewery._resolve_graph (src/main.py lines 435-465)

Resolution state: res_map (the plan under construction, an insertion
ordered dict) and the session-scoped _dep_resolution_cache.  Metadata is
the finite upstream table; within one invocation _get_api_data resolves
each package name to one fixed record, so the resolver consults the table
directly (the cache/retry behavior of _get_api_data is modelled above).
The Python recursion carries no fuel; the model adds a fuel argument and
proves that meta.length + 1 never runs out, which is the termination
argument for the source. -/

/-- The entry stored per package in res_map and the session cache. -/
structure RRes where
  version : String
  requestedBy : String
  dependencies : List String
deriving DecidableEq, Repr

abbrev RMap := List (String × RRes)

structure RState where
  resMap : RMap
  cache : RMap
deriving DecidableEq, Repr

inductive RErr where
  | missingMeta (name : String)
  | outOfFuel
deriving DecidableEq, Repr

/-- The inner loop of the cached branch: for dep in cached.dependencies,
if dep is in the session cache and not yet in res_map, copy it over. -/
def addCachedDeps (cache : RMap) : List String → RMap → RMap
  | [], m => m
  | d :: ds, m =>
      match alookup cache d with
      | some r => if (alookup m d).isNone
                  then addCachedDeps cache ds (m ++ [(d, r)])
                  else addCachedDeps cache ds m
      | none => addCachedDeps cache ds m

/-- Sequencing of resolver calls over a list with exception short-circuit,
as a Python for loop whose body may raise. -/
def depsFold (f : String → RState → RState × Option RErr) :
    List String → RState → RState × Option RErr
  | [], st => (st, none)
  | d :: ds, st =>
      match f d st with
      | (st', none) => depsFold f ds st'
      | r => r

/-- One unfolding of _resolve_graph, with rec standing for the recursive
call on dependencies. -/
def resolveStep (meta : List (String × Formula))
    (rec : String → String → RState → RState × Option RErr)
    (pkg parent : String) (st : RState) : RState × Option RErr :=
  match alookup st.cache pkg with
  | some cached =>
      if (alookup st.resMap pkg).isNone then
        ({ st with resMap := addCachedDeps st.cache cached.dependencies
                     (st.resMap ++ [(pkg, cached)]) }, none)
      else (st, none)
  | none =>
      match alookup meta pkg with
      | none => (st, some (.missingMeta pkg))
      | some data =>
          if (alookup st.resMap pkg).isSome then (st, none)
          else
            let r : RRes := ⟨data.version, parent, data.dependencies⟩
            depsFold (fun d st' => rec d pkg st')
              data.dependencies ⟨st.resMap ++ [(pkg, r)], st.cache ++ [(pkg, r)]⟩

/-- Brewery._resolve_graph with explicit fuel (structural, so that closed
runs evaluate). -/
def resolveGraph (meta : List (String × Formula)) : Nat →
    String → String → RState → RState × Option RErr
  | 0 => fun _ _ st => (st, some .outOfFuel)
  | fuel + 1 => resolveStep meta (resolveGraph meta fuel)

/-- The resolution loop of Brewery.install: each root is resolved with
parent "User Request"; the first exception aborts the loop. -/
def resolveRoots (meta : List (String × Formula)) (fuel : Nat)
    (roots : List String) (st : RState) : RState × Option RErr :=
  depsFold (fun p st' => resolveGraph meta fuel p "User Request" st') roots st

/-! ### Filesystem and worker model (Brewery._download_and_extract_worker,
src/main.py lines 521-616)

The filesystem fragments the worker touches: transient tarballs at the
base directory (name to contents), versioned Cellar directories keyed by
(package, version) holding their top-level entries, and the shared bin
directory of symlinks (link name to target path string).  Tar extraction
and SHA-256 are external facilities provided by the environment as
oracles.  Bytes are a list of octet values. -/

abbrev Bytes := List Nat

/-- A directory-tree node inside an extracted archive or a Cellar dir. -/
inductive FNode where
  | file
  | dir (children : List (String × FNode))

abbrev FTree := List (String × FNode)

structure FS where
  tarballs : List (String × Bytes)
  cellar : List ((String × String) × FTree)
  binLinks : List (String × String)

/-- The environment an install invocation runs against: the upstream
formula table, the host OS flavor, the GHCR token endpoint (False means
the single un-retried token request raises), the bottle byte stream keyed
by url and attempt index (none means the attempt raises a
requests.RequestException), the SHA-256 hex digest function, and the
gzip+tar extraction oracle (none means tarfile raises on the bytes). -/
structure Env where
  meta : List (String × Formula)
  flavor : String
  tokenOk : String → Bool
  download : String → Nat → Option Bytes
  hash : Bytes → String
  untar : Bytes → Option FTree

/-- The download retry loop: attempts are tried in order; the first
successful attempt yields the written bytes; when every attempt raises,
the final exception propagates (none). -/
def tryDownload (dl : Nat → Option Bytes) : Nat → Nat → Option Bytes
  | _, 0 => none
  | i, r + 1 =>
      match dl i with
      | some b => some b
      | none => tryDownload dl (i + 1) r

/-- Payload-root selection inside the temporary extraction directory:
prefer tmp/pkg/version, then tmp/pkg, then tmp itself.  A path that
exists but is a regular file makes the subsequent iterdir raise (none). -/
def payloadRoot (root : FTree) (pkg ver : String) : Option FTree :=
  match alookup root pkg with
  | some (.dir c1) =>
      match alookup c1 ver with
      | some (.dir c2) => some c2
      | some .file => none
      | none => some c1
  | some .file => none
  | none => some root

/-- Link collection for one of the folders bin, sbin: every regular file
inside gets a symlink named after it in the shared bin directory, whose
target is the file inside the Cellar.  A bin or sbin entry that is itself
a regular file makes iterdir raise (none); an absent folder contributes
nothing. -/
def collectDir (pkg ver fname : String) (children : FTree) :
    Option (List (String × String)) :=
  match alookup children fname with
  | some (.dir es) =>
      some (es.filterMap (fun e =>
        match e.2 with
        | .file => some (e.1, "Cellar/" ++ pkg ++ "/" ++ ver ++ "/" ++ fname ++ "/" ++ e.1)
        | .dir _ => none))
  | some .file => none
  | none => some []

/-- The link pass over bin then sbin.  (Partially created links of a run
that raises midway are not tracked; no claim concerns them.) -/
def collectLinks (pkg ver : String) (children : FTree) :
    Option (List (String × String)) :=
  match collectDir pkg ver "bin" children, collectDir pkg ver "sbin" children with
  | some a, some b => some (a ++ b)
  | _, _ => none

/-- Per-worker observable outcome.  The Python worker returns None both
when metadata is missing and when the bottle map lacks the OS flavor
(distinguished here, as the progress messages distinguish them), raises
on failures, and returns the install record on success. -/
inductive WorkerOutcome where
  | success (version : String) (links : List String)
  | noMetadata
  | noBottle
  | failed (msg : String)
deriving DecidableEq, Repr

/-- Brewery._download_and_extract_worker.  Steps, in source order:
metadata lookup (None return on absence), bottle lookup by OS flavor
(None return on absence), token request (a raise propagates), download
with retries, SHA-256 verification (on mismatch the tarball is unlinked
and the worker raises), fresh recreation of Cellar/pkg/version,
extraction and payload move, tarball unlink, and symlinking of bin/sbin
regular files (replacing colliding names, last writer wins). -/
def workerStep (env : Env) (pkg version : String) (fs : FS) : WorkerOutcome × FS :=
  match alookup env.meta pkg with
  | none => (.noMetadata, fs)
  | some data =>
      match alookup data.bottleFiles env.flavor with
      | none => (.noBottle, fs)
      | some bottle =>
          if env.tokenOk pkg then
            let tmpName := pkg ++ "_" ++ version ++ ".tar.gz"
            match tryDownload (env.download bottle.url) 0 RETRY_ATTEMPTS with
            | none => (.failed "download", fs)
            | some bytes =>
                let fs1 : FS := { fs with tarballs := aset fs.tarballs tmpName bytes }
                if env.hash bytes = bottle.sha256 then
                  let fs2 : FS := { fs1 with cellar := aset fs1.cellar (pkg, version) [] }
                  match env.untar bytes with
                  | none => (.failed "extract", fs2)
                  | some tree =>
                      match payloadRoot tree pkg version with
                      | none => (.failed "layout", fs2)
                      | some children =>
                          let fs3 : FS :=
                            { fs2 with cellar := aset fs2.cellar (pkg, version) children }
                          let fs4 : FS :=
                            { fs3 with tarballs := aremove fs3.tarballs tmpName }
                          match collectLinks pkg version children with
                          | none => (.failed "link", fs4)
                          | some links =>
                              (.success version (links.map Prod.fst),
                               { fs4 with binLinks :=
                                   links.foldl (fun acc l => aset acc l.1 l.2) fs4.binLinks })
                else
                  (.failed "sha256", { fs1 with tarballs := aremove fs1.tarballs tmpName })
          else (.failed "token", fs)

/-- The worker's outcome classification, which depends only on the
environment and the task (proved below). -/
def workerOutcomeOf (env : Env) (pkg version : String) : WorkerOutcome :=
  (workerStep env pkg version ⟨[], [], []⟩).1

/-! ### Brewery.install (src/main.py lines 467-519) and the inventory -/

/-- One inventory.json entry. -/
structure InvEntry where
  version : String
  path : String
  symlinks : List String
deriving DecidableEq, Repr

abbrev Inventory := List (String × InvEntry)

/-- Run the dispatched workers.  The thread pool interleaving does not
affect any claimed observable (worker outcomes are filesystem
independent, proved below); the model runs the tasks in dispatch order. -/
def runWorkers (env : Env) : List (String × String) → FS →
    List (String × WorkerOutcome) × FS
  | [], fs => ([], fs)
  | t :: rest, fs =>
      let r := workerStep env t.1 t.2 fs
      let rs := runWorkers env rest r.2
      ((t.1, r.1) :: rs.1, rs.2)

/-- The orchestrator's commit loop: each successful worker result is
written into the inventory (and persisted); failures are reported and
skipped. -/
def commitResults (inv : Inventory) : List (String × WorkerOutcome) → Inventory
  | [] => inv
  | (p, .success v links) :: rest =>
      commitResults (aset inv p ⟨v, "Cellar/" ++ p ++ "/" ++ v, links⟩) rest
  | _ :: rest => commitResults inv rest

/-- Everything observable about one install invocation. -/
structure InstallResult where
  aborted : Option RErr
  noopAlreadyInstalled : Bool
  tasks : List (String × String)
  dispatched : List String
  results : List (String × WorkerOutcome)
  inventory : Inventory
  fs : FS

/-- Brewery.install: resolve the roots (an exception aborts the whole
invocation), diff the plan against the inventory unless force, return
early when nothing is to fetch, otherwise dispatch one worker per task
and commit successful results.  Each CLI invocation constructs a fresh
Brewery, so sessionCache is empty at the command line; it is kept as a
parameter because upgrade calls install in the same session. -/
def install (env : Env) (inv : Inventory) (fs : FS) (sessionCache : RMap)
    (pkgNames : List String) (force : Bool) : InstallResult :=
  match resolveRoots env.meta (env.meta.length + 1) pkgNames ⟨[], sessionCache⟩ with
  | (_, some e) => ⟨some e, false, [], [], [], inv, fs⟩
  | (rst, none) =>
      let plan := rst.resMap
      let toFetch := if force then plan
                     else plan.filter (fun nd => (alookup inv nd.1).isNone)
      if toFetch.isEmpty then ⟨none, true, [], [], [], inv, fs⟩
      else
        let tasks := toFetch.map (fun nd => (nd.1, nd.2.version))
        let run := runWorkers env tasks fs
        ⟨none, false, tasks, tasks.map Prod.fst, run.1, commitResults inv run.1, run.2⟩

/-! ### Brewery.uninstall (src/main.py lines 618-644) -/

structure UninstallResult where
  notFoundReported : Bool
  inventory : Inventory
  fs : FS
  cache : MetaCache

/-- Removal of one installed package: unlink each listed symlink if still
present, remove the whole Cellar/name directory, invalidate the metadata
cache entry, and delete the inventory entry. -/
def uninstallOne (inv : Inventory) (fs : FS) (c : MetaCache) (pkg : String) :
    Inventory × FS × MetaCache :=
  match alookup inv pkg with
  | none => (inv, fs, c)
  | some info =>
      let bl := info.symlinks.foldl (fun acc l => aremove acc l) fs.binLinks
      let fs' : FS := ⟨fs.tarballs, fs.cellar.filter (fun kv => kv.1.1 ≠ pkg), bl⟩
      (aremove inv pkg, fs', MetadataCache.invalidate c pkg)

def uninstallLoop (inv : Inventory) (fs : FS) (c : MetaCache) :
    List String → Inventory × FS × MetaCache
  | [] => (inv, fs, c)
  | p :: ps =>
      let r := uninstallOne inv fs c p
      uninstallLoop r.1 r.2.1 r.2.2 ps

/-- Brewery.uninstall: filter the names down to those in the inventory;
when none remain, report "not found" and change nothing; otherwise (after
the optional confirmation prompt, whose answer is the userYes input)
remove each one in turn. -/
def uninstall (inv : Inventory) (fs : FS) (c : MetaCache)
    (pkgNames : List String) (confirm : Bool) (userYes : Bool) : UninstallResult :=
  let toRemove := pkgNames.filter (fun p => (alookup inv p).isSome)
  if toRemove.isEmpty then ⟨true, inv, fs, c⟩
  else if confirm && !userYes then ⟨false, inv, fs, c⟩
  else
    let r := uninstallLoop inv fs c toRemove
    ⟨false, r.1, r.2.1, r.2.2⟩

/-! ### Association list lemmas -/

theorem alookup_aset {κ β : Type} [DecidableEq κ] (l : List (κ × β)) (k : κ) (v : β)
    (k' : κ) : alookup (aset l k v) k' = if k = k' then some v else alookup l k' := by
  induction l with
  | nil => simp [aset, alookup]
  | cons hd tl ih =>
      by_cases h1 : hd.1 = k
      · simp [aset, alookup, h1]
        by_cases h2 : k = k'
        · simp [h2]
        · simp [h2]
      · simp only [aset]
        rw [if_neg (by exact_mod_cast h1)]
        by_cases h2 : hd.1 = k'
        · have : ¬ k = k' := fun hk => h1 (h2 ▸ hk ▸ rfl)
          simp [alookup, h2, this]
        · simp [alookup, h2, ih]

theorem alookup_aremove {κ β : Type} [DecidableEq κ] (l : List (κ × β)) (k k' : κ) :
    alookup (aremove l k) k' = if k = k' then none else alookup l k' := by
  induction l with
  | nil => simp [aremove, alookup]
  | cons hd tl ih =>
      rcases hd with ⟨k1, v1⟩
      by_cases h1 : k1 = k
      · subst h1
        simp only [aremove, if_true]
        rw [ih]
        by_cases h2 : k1 = k'
        · subst h2; simp [alookup]
        · simp [alookup, h2]
      · simp only [aremove, if_neg h1]
        by_cases h2 : k1 = k'
        · subst h2
          have hkk : ¬ k = k1 := fun h => h1 h.symm
          simp [alookup, hkk]
        · simp [alookup, h2, ih]

theorem alookup_append_some {κ β : Type} [DecidableEq κ] {l1 l2 : List (κ × β)} {k : κ}
    {v : β} (h : alookup l1 k = some v) : alookup (l1 ++ l2) k = some v := by
  induction l1 with
  | nil => simp [alookup] at h
  | cons hd tl ih =>
      rcases hd with ⟨k1, v1⟩
      by_cases h1 : k1 = k
      · simp only [alookup, if_pos h1] at h
        simp [alookup, h1, h]
      · simp only [alookup, if_neg h1] at h
        simp [alookup, h1, ih h]

theorem alookup_append_none {κ β : Type} [DecidableEq κ] {l1 : List (κ × β)}
    (l2 : List (κ × β)) {k : κ} (h : alookup l1 k = none) :
    alookup (l1 ++ l2) k = alookup l2 k := by
  induction l1 with
  | nil => simp
  | cons hd tl ih =>
      rcases hd with ⟨k1, v1⟩
      by_cases h1 : k1 = k
      · simp [alookup, h1] at h
      · simp only [alookup, if_neg h1] at h
        simp [alookup, h1, ih h]

theorem alookup_some_mem_keys {κ β : Type} [DecidableEq κ] {l : List (κ × β)} {k : κ}
    {v : β} (h : alookup l k = some v) : k ∈ l.map Prod.fst := by
  induction l with
  | nil => simp [alookup] at h
  | cons hd tl ih =>
      rcases hd with ⟨k1, v1⟩
      by_cases h1 : k1 = k
      · simp [h1]
      · simp only [alookup, if_neg h1] at h
        simp [ih h]

theorem alookup_none_of_not_mem_keys {κ β : Type} [DecidableEq κ] {l : List (κ × β)}
    {k : κ} (h : k ∉ l.map Prod.fst) : alookup l k = none := by
  induction l with
  | nil => rfl
  | cons hd tl ih =>
      rcases hd with ⟨k1, v1⟩
      simp only [List.map_cons, List.mem_cons] at h
      push_neg at h
      have hne : ¬ k1 = k := fun hh => h.1 hh.symm
      simp [alookup, hne, ih h.2]

/-- MetadataCache.get on an absent key returns absent and leaves the store
unchanged. -/
theorem cacheGet_of_alookup_none {c : MetaCache} {name : String} (now : Rat)
    (h : alookup c name = none) : MetadataCache.get c name now = (none, c) := by
  simp [MetadataCache.get, h]

/-! ### Claim C9 -/

/-- Claim C9: os_flavor returns, on a macOS host, arch_codename where arch
is arm64 or x86_64 and codename is looked up from the major OS version via
OS_MAP (26 tahoe, 15 sequoia, 14 sonoma, 13 ventura, 12 monterey,
11 big_sur, 10.15 catalina), unknown versions (including macOS 10.15,
whose major component is 10) falling back to ventura; on Linux it returns
the literal x86_64_linux; any other system fails with an
unsupported-platform error. -/
theorem os_flavor_spec (system machine macVer : String) :
    (lowerStr system = "linux" →
      get_os_flavor system machine macVer = .ok "x86_64_linux") ∧
    (lowerStr system = "darwin" →
      get_os_flavor system machine macVer =
        .ok ((if lowerStr machine = "arm64" then "arm64" else "x86_64") ++ "_" ++
          (alookup OS_MAP (majorOf macVer)).getD "ventura")) ∧
    (lowerStr system ≠ "linux" → lowerStr system ≠ "darwin" →
      get_os_flavor system machine macVer = .error "Unsupported Operating System") ∧
    alookup OS_MAP "10.15" = some "catalina" ∧
    (lowerStr system = "darwin" → alookup OS_MAP (majorOf macVer) = none →
      get_os_flavor system machine macVer =
        .ok ((if lowerStr machine = "arm64" then "arm64" else "x86_64") ++ "_" ++ "ventura")) ∧
    get_os_flavor "Darwin" "arm64" "10.15.7" = .ok "arm64_ventura" := by
  refine ⟨fun h => ?_, fun h => ?_, fun h1 h2 => ?_, by decide, fun h h' => ?_, rfl⟩
  · simp [get_os_flavor, h]
  · have hne : lowerStr system ≠ "linux" := by rw [h]; decide
    simp [get_os_flavor, h, hne]
  · simp [get_os_flavor, h1, h2]
  · have hne : lowerStr system ≠ "linux" := by rw [h]; decide
    simp [get_os_flavor, h, hne, h']

/-- Witness for C9 at a concrete Linux host. -/
theorem os_flavor_spec_witness :
    get_os_flavor "Linux" "x86_64" "" = .ok "x86_64_linux" :=
  (os_flavor_spec "Linux" "x86_64" "").1 (by decide)

/-! ### Claim C4 -/

/-- Claim C4: cache get returns the stored record iff the entry's age is
strictly less than ttl_hours times 3600 seconds; an expired entry is
deleted from the backing store by the read itself; the cache never returns
an entry whose age is at least its TTL (any returned record comes from an
entry strictly younger than its TTL). -/
theorem cache_get_ttl_spec (c : MetaCache) (name : String) (now : Rat) :
    (∀ e, alookup c name = some e →
      (((MetadataCache.get c name now).1 = some e.data) ↔
        now - e.cachedAt < (e.ttlHours : Rat) * 3600) ∧
      ((e.ttlHours : Rat) * 3600 ≤ now - e.cachedAt →
        alookup (MetadataCache.get c name now).2 name = none)) ∧
    (alookup c name = none → MetadataCache.get c name now = (none, c)) ∧
    (∀ d, (MetadataCache.get c name now).1 = some d →
      ∃ e, alookup c name = some e ∧ d = e.data ∧
        now - e.cachedAt < (e.ttlHours : Rat) * 3600) := by
  have h3600 : (0 : Rat) < 3600 := by norm_num
  refine ⟨fun e he => ?_, fun h => cacheGet_of_alookup_none now h, fun d hd => ?_⟩
  · constructor
    · by_cases hv : (now - e.cachedAt) / 3600 < (e.ttlHours : Rat)
      · have : now - e.cachedAt < (e.ttlHours : Rat) * 3600 := (div_lt_iff₀ h3600).mp hv
        simp [MetadataCache.get, he, hv, this]
      · have : ¬ now - e.cachedAt < (e.ttlHours : Rat) * 3600 :=
          fun hc => hv ((div_lt_iff₀ h3600).mpr hc)
        simp [MetadataCache.get, he, hv, this]
    · intro hexp
      have hv : ¬ (now - e.cachedAt) / 3600 < (e.ttlHours : Rat) :=
        fun hc => absurd ((div_lt_iff₀ h3600).mp hc) (not_lt.mpr hexp)
      simp [MetadataCache.get, he, hv, alookup_aremove]
  · match he : alookup c name with
    | none => rw [cacheGet_of_alookup_none now he] at hd; exact absurd hd (by simp)
    | some e =>
        refine ⟨e, rfl, ?_, ?_⟩
        · by_cases hv : (now - e.cachedAt) / 3600 < (e.ttlHours : Rat)
          · simp [MetadataCache.get, he, hv] at hd
            exact hd.symm
          · simp [MetadataCache.get, he, hv] at hd
        · by_cases hv : (now - e.cachedAt) / 3600 < (e.ttlHours : Rat)
          · exact (div_lt_iff₀ h3600).mp hv
          · simp [MetadataCache.get, he, hv] at hd

/-- A concrete formula record used by several witnesses. -/
def f1 : Formula := ⟨"1", [], []⟩

/-- Witness for C4: an entry with TTL 0 read at time 5 is expired; the read
deletes it. -/
theorem cache_get_ttl_spec_witness :
    alookup (MetadataCache.get [("x", ⟨f1, 0, 0⟩)] "x" 5).2 "x" = none :=
  ((cache_get_ttl_spec [("x", ⟨f1, 0, 0⟩)] "x" 5).1 ⟨f1, 0, 0⟩ rfl).2 (by norm_num)

/-! ### Claim C5 -/

/-- Classification of responses that make the retry loop continue: any
non-200 non-404 status, a timeout, a connection failure, or a 200 whose
JSON parse raises. -/
def isRetryable : NetResponse → Bool
  | .ok200 _ => false
  | .notFound => false
  | _ => true

/-- The sleep the Python code performs after a non-final failed attempt:
RETRY_DELAY seconds for the exception branches (timeout, connection
failure, parse failure), nothing for the non-200-status branch, which
falls through to the next attempt with no time.sleep call. -/
def sleepAfter : NetResponse → List Nat
  | .timeout => [RETRY_DELAY]
  | .connError => [RETRY_DELAY]
  | .badJson => [RETRY_DELAY]
  | _ => []

/-- Counterexample to claim C5: when every attempt yields a non-200
non-404 status (here 500), the code retries and returns absent, but it
performs no 2-second sleeps at all: the claimed spacing of 2 seconds
between attempts does not happen on the other-status path. -/
theorem api_retry_spacing_counterexample :
    getApiData (fun _ => .status 500) true [] 0 "wget" = ⟨none, 3, [], []⟩ ∧
    (getApiData (fun _ => .status 500) true [] 0 "wget").sleeps ≠
      [RETRY_DELAY, RETRY_DELAY] := by
  constructor
  · decide
  · decide

/-- Claim C5 (amended): fetch returns absent immediately on HTTP 404
without retrying; on HTTP 200 it parses, stores in the cache and returns
the record; on any other non-200 status or transient error it retries up
to 3 attempts total and returns absent after the final failed attempt,
with a 2-second sleep between attempts only after a timeout, connection
failure or parse failure - a non-200 status retries immediately with no
delay, and no sleep follows the final attempt. -/
theorem api_retry_spec (net : Nat → NetResponse) (c : MetaCache) (now : Rat)
    (name : String) (m : Formula) (hmiss : alookup c name = none) :
    (net 0 = .notFound → getApiData net false c now name = ⟨none, 1, [], c⟩) ∧
    (net 0 = .ok200 m →
      getApiData net false c now name =
        ⟨some m, 1, [], MetadataCache.set c name m now CACHE_TTL_HOURS⟩) ∧
    ((∀ i, i < RETRY_ATTEMPTS → isRetryable (net i) = true) →
      getApiData net false c now name =
        ⟨none, RETRY_ATTEMPTS, sleepAfter (net 0) ++ sleepAfter (net 1), c⟩) := by
  have hbase : getApiData net false c now name = apiAttempts net name now c 0 RETRY_ATTEMPTS := by
    simp [getApiData, cacheGet_of_alookup_none now hmiss]
  refine ⟨fun h => ?_, fun h => ?_, fun hAll => ?_⟩
  · rw [hbase]
    simp [apiAttempts, RETRY_ATTEMPTS, h]
  · rw [hbase]
    simp [apiAttempts, RETRY_ATTEMPTS, h]
  · rw [hbase]
    have e0 := hAll 0 (by decide)
    have e1 := hAll 1 (by decide)
    have e2 := hAll 2 (by decide)
    clear hAll
    cases hn0 : net 0 <;> rw [hn0] at e0 <;> simp [isRetryable] at e0 <;>
    cases hn1 : net 1 <;> rw [hn1] at e1 <;> simp [isRetryable] at e1 <;>
    cases hn2 : net 2 <;> rw [hn2] at e2 <;> simp [isRetryable] at e2 <;>
    simp [apiAttempts, withSleep, sleepAfter, RETRY_DELAY, RETRY_ATTEMPTS, hn0, hn1, hn2]

/-- Witness for the amended C5: three timeouts give absent after 3
attempts with a 2-second sleep between consecutive attempts. -/
theorem api_retry_spec_witness :
    getApiData (fun _ => .timeout) false [] 0 "wget" =
      ⟨none, RETRY_ATTEMPTS, [RETRY_DELAY, RETRY_DELAY], []⟩ := by
  have h := ((api_retry_spec (fun _ => .timeout) [] 0 "wget" f1 rfl).2.2 (fun i _ => rfl))
  simpa [sleepAfter] using h

/-! ### Claim C10 -/

/-- Claim C10: a metadata fetch with force_refresh that receives HTTP 200
is not read-only on the durable cache: it stores the fresh record through
MetadataCache.set with the default 6-hour TTL, so the entry under that
name afterwards carries the fresh record, cached_at equal to the current
time, and ttl_hours 6, replacing any previous entry. -/
theorem force_refresh_writes_cache (net : Nat → NetResponse) (c : MetaCache)
    (now : Rat) (name : String) (m : Formula) (h : net 0 = .ok200 m) :
    getApiData net true c now name =
      ⟨some m, 1, [], MetadataCache.set c name m now CACHE_TTL_HOURS⟩ ∧
    alookup (getApiData net true c now name).cache name = some ⟨m, now, CACHE_TTL_HOURS⟩ := by
  have h1 : getApiData net true c now name =
      ⟨some m, 1, [], MetadataCache.set c name m now CACHE_TTL_HOURS⟩ := by
    simp [getApiData, apiAttempts, RETRY_ATTEMPTS, h]
  refine ⟨h1, ?_⟩
  rw [h1]
  simp [MetadataCache.set, alookup_aset]

/-- Witness for C10: a forced refresh at time 0 replaces a pre-existing
entry (cached at time 7 with TTL 1) by the fresh record with TTL 6. -/
theorem force_refresh_writes_cache_witness :
    alookup (getApiData (fun _ => .ok200 f1) true [("x", ⟨f1, 7, 1⟩)] 0 "x").cache "x" =
      some ⟨f1, 0, CACHE_TTL_HOURS⟩ :=
  (force_refresh_writes_cache (fun _ => .ok200 f1) [("x", ⟨f1, 7, 1⟩)] 0 "x" f1 rfl).2

/-! ### Claim C1 -/

/-- Claim C1: when metadata is absent for a package visited during
dependency resolution, the resolver raises a missing-metadata error and
install aborts the whole invocation: no task is built, no download worker
is dispatched, no worker result exists, and the inventory and filesystem
are unchanged. -/
theorem install_aborts_on_missing_metadata (env : Env) (inv : Inventory) (fs : FS)
    (sc : RMap) (pkgNames : List String) {st' : RState} {n : String}
    (h : resolveRoots env.meta (env.meta.length + 1) pkgNames ⟨[], sc⟩ =
      (st', some (.missingMeta n))) (force : Bool) :
    install env inv fs sc pkgNames force =
      ⟨some (.missingMeta n), false, [], [], [], inv, fs⟩ := by
  simp [install, h]

/-- An environment whose only formula depends on a package with no
metadata. -/
def envC1 : Env :=
  { meta := [("a", ⟨"1", ["ghost"], []⟩)], flavor := "f",
    tokenOk := fun _ => true, download := fun _ _ => none,
    hash := fun _ => "", untar := fun _ => none }

/-- Witness for C1: installing a whose dependency ghost has no metadata
aborts with the missing-metadata error and changes nothing. -/
theorem install_aborts_on_missing_metadata_witness :
    install envC1 [] ⟨[], [], []⟩ [] ["a"] false =
      ⟨some (.missingMeta "ghost"), false, [], [], [], [], ⟨[], [], []⟩⟩ :=
  install_aborts_on_missing_metadata envC1 [] ⟨[], [], []⟩ [] ["a"] rfl false

/-! ### Resolver lemmas (towards claim C3) -/

theorem alookup_eq_none_iff {κ β : Type} [DecidableEq κ] {l : List (κ × β)} {k : κ} :
    alookup l k = none ↔ k ∉ l.map Prod.fst := by
  constructor
  · intro h hm
    induction l with
    | nil => simp at hm
    | cons hd tl ih =>
        rcases hd with ⟨k1, v1⟩
        by_cases h1 : k1 = k
        · simp [alookup, h1] at h
        · simp only [alookup, if_neg h1] at h
          simp only [List.map_cons, List.mem_cons] at hm
          rcases hm with hm | hm
          · exact h1 hm.symm
          · exact ih h hm
  · exact alookup_none_of_not_mem_keys

/-- Both components of the resolution state only ever get new keys:
existing bindings are preserved by every resolver step. -/
def preservesMaps (st st' : RState) : Prop :=
  (∀ p r, alookup st.resMap p = some r → alookup st'.resMap p = some r) ∧
  (∀ p r, alookup st.cache p = some r → alookup st'.cache p = some r)

theorem preservesMaps_refl (st : RState) : preservesMaps st st :=
  ⟨fun _ _ h => h, fun _ _ h => h⟩

theorem preservesMaps_trans {a b c : RState} (h1 : preservesMaps a b)
    (h2 : preservesMaps b c) : preservesMaps a c :=
  ⟨fun p r h => h2.1 p r (h1.1 p r h), fun p r h => h2.2 p r (h1.2 p r h)⟩

theorem addCachedDeps_preserve (cache : RMap) (ds : List String) (m : RMap) :
    ∀ p r, alookup m p = some r → alookup (addCachedDeps cache ds m) p = some r := by
  induction ds generalizing m with
  | nil => intro p r h; simpa [addCachedDeps] using h
  | cons d ds ih =>
      intro p r h
      simp only [addCachedDeps]
      rcases hc : alookup cache d with _ | v
      · exact ih m p r h
      · by_cases hm : (alookup m d).isNone
        · simp only [hm, if_true]
          exact ih _ p r (alookup_append_some h)
        · simp only [hm, if_false]
          exact ih m p r h

theorem depsFold_preserve (f : String → RState → RState × Option RErr)
    (hf : ∀ d st0, preservesMaps st0 (f d st0).1) (ds : List String) (st : RState) :
    preservesMaps st (depsFold f ds st).1 := by
  induction ds generalizing st with
  | nil => exact preservesMaps_refl st
  | cons d ds ih =>
      rcases hfd : f d st with ⟨st1, e⟩
      have h1 : preservesMaps st st1 := by
        have := hf d st
        rw [hfd] at this
        exact this
      cases e with
      | none => simpa [depsFold, hfd] using preservesMaps_trans h1 (ih st1)
      | some err => simpa [depsFold, hfd] using h1

theorem resolveStep_preserve (meta : List (String × Formula))
    (rec : String → String → RState → RState × Option RErr) (pkg parent : String)
    (st : RState) (hrec : ∀ d st0, preservesMaps st0 (rec d pkg st0).1) :
    preservesMaps st (resolveStep meta rec pkg parent st).1 := by
  rcases hc : alookup st.cache pkg with _ | cached
  · rcases hm : alookup meta pkg with _ | data
    · simpa [resolveStep, hc, hm] using preservesMaps_refl st
    · by_cases hrm : (alookup st.resMap pkg).isSome
      · simpa [resolveStep, hc, hm, hrm] using preservesMaps_refl st
      · have habs : alookup st.resMap pkg = none := by
          rcases h : alookup st.resMap pkg with _ | v
          · rfl
          · rw [h] at hrm; simp at hrm
        have h1 : preservesMaps st
            ⟨st.resMap ++ [(pkg, ⟨data.version, parent, data.dependencies⟩)],
             st.cache ++ [(pkg, ⟨data.version, parent, data.dependencies⟩)]⟩ :=
          ⟨fun p r h => alookup_append_some h, fun p r h => alookup_append_some h⟩
        have h2 := depsFold_preserve (fun d st' => rec d pkg st') hrec data.dependencies
          ⟨st.resMap ++ [(pkg, ⟨data.version, parent, data.dependencies⟩)],
           st.cache ++ [(pkg, ⟨data.version, parent, data.dependencies⟩)]⟩
        simpa [resolveStep, hc, hm, hrm] using preservesMaps_trans h1 h2
  · by_cases hrm : (alookup st.resMap pkg).isNone
    · have hpres : preservesMaps st ⟨addCachedDeps st.cache cached.dependencies
          (st.resMap ++ [(pkg, cached)]), st.cache⟩ :=
        ⟨fun p r h => addCachedDeps_preserve _ _ _ p r (alookup_append_some h),
         fun p r h => h⟩
      simpa [resolveStep, hc, hrm] using hpres
    · simpa [resolveStep, hc, hrm] using preservesMaps_refl st

theorem resolveGraph_preserve (meta : List (String × Formula)) :
    ∀ fuel pkg parent st, preservesMaps st (resolveGraph meta fuel pkg parent st).1 := by
  intro fuel
  induction fuel with
  | zero => intro pkg parent st; simpa [resolveGraph] using preservesMaps_refl st
  | succ n ih =>
      intro pkg parent st
      simpa [resolveGraph] using
        resolveStep_preserve meta (resolveGraph meta n) pkg parent st
          (fun d st0 => ih d pkg st0)

/-- Appending a binding for an absent key keeps the key list duplicate free. -/
theorem nodup_keys_append {κ β : Type} [DecidableEq κ] {m : List (κ × β)} {k : κ}
    (v : β) (h : (m.map Prod.fst).Nodup) (habs : alookup m k = none) :
    (((m ++ [(k, v)]).map Prod.fst)).Nodup := by
  have hk : k ∉ m.map Prod.fst := alookup_eq_none_iff.mp habs
  rw [List.map_append]
  rw [List.nodup_append]
  refine ⟨h, by simp, ?_⟩
  intro a ha hb
  simp at hb
  subst hb
  exact hk ha

theorem addCachedDeps_nodup (cache : RMap) (ds : List String) (m : RMap)
    (h : (m.map Prod.fst).Nodup) :
    ((addCachedDeps cache ds m).map Prod.fst).Nodup := by
  induction ds generalizing m with
  | nil => simpa [addCachedDeps] using h
  | cons d ds ih =>
      simp only [addCachedDeps]
      rcases hc : alookup cache d with _ | v
      · exact ih m h
      · by_cases hm : (alookup m d).isNone
        · simp only [hm, if_true]
          have habs : alookup m d = none := by
            rcases hmd : alookup m d with _ | w
            · rfl
            · rw [hmd] at hm; simp at hm
          exact ih _ (nodup_keys_append v h habs)
        · simp only [hm, if_false]
          exact ih m h

theorem depsFold_nodup (f : String → RState → RState × Option RErr)
    (hf : ∀ d st0, ((st0.resMap.map Prod.fst).Nodup) →
      (((f d st0).1.resMap.map Prod.fst).Nodup)) (ds : List String) (st : RState)
    (h : (st.resMap.map Prod.fst).Nodup) :
    (((depsFold f ds st).1.resMap.map Prod.fst)).Nodup := by
  induction ds generalizing st with
  | nil => simpa [depsFold] using h
  | cons d ds ih =>
      rcases hfd : f d st with ⟨st1, e⟩
      have h1 : (st1.resMap.map Prod.fst).Nodup := by
        have := hf d st h
        rw [hfd] at this
        exact this
      cases e with
      | none => simpa [depsFold, hfd] using ih st1 h1
      | some err => simpa [depsFold, hfd] using h1

theorem resolveStep_nodup (meta : List (String × Formula))
    (rec : String → String → RState → RState × Option RErr) (pkg parent : String)
    (st : RState)
    (hrec : ∀ d st0, ((st0.resMap.map Prod.fst).Nodup) →
      (((rec d pkg st0).1.resMap.map Prod.fst).Nodup))
    (h : (st.resMap.map Prod.fst).Nodup) :
    (((resolveStep meta rec pkg parent st).1.resMap.map Prod.fst)).Nodup := by
  rcases hc : alookup st.cache pkg with _ | cached
  · rcases hm : alookup meta pkg with _ | data
    · simpa [resolveStep, hc, hm] using h
    · by_cases hrm : (alookup st.resMap pkg).isSome
      · simpa [resolveStep, hc, hm, hrm] using h
      · have habs : alookup st.resMap pkg = none := by
          rcases hx : alookup st.resMap pkg with _ | v
          · rfl
          · rw [hx] at hrm; simp at hrm
        have h1 := nodup_keys_append (⟨data.version, parent, data.dependencies⟩ : RRes) h habs
        have h2 := depsFold_nodup (fun d st' => rec d pkg st') hrec data.dependencies
          ⟨st.resMap ++ [(pkg, ⟨data.version, parent, data.dependencies⟩)],
           st.cache ++ [(pkg, ⟨data.version, parent, data.dependencies⟩)]⟩ h1
        simpa [resolveStep, hc, hm, hrm] using h2
  · by_cases hrm : (alookup st.resMap pkg).isNone
    · have habs : alookup st.resMap pkg = none := by
        rcases hx : alookup st.resMap pkg with _ | v
        · rfl
        · rw [hx] at hrm; simp at hrm
      have h1 := addCachedDeps_nodup st.cache cached.dependencies
        (st.resMap ++ [(pkg, cached)]) (nodup_keys_append cached h habs)
      simpa [resolveStep, hc, hrm] using h1
    · simpa [resolveStep, hc, hrm] using h

theorem resolveGraph_nodup (meta : List (String × Formula)) :
    ∀ fuel pkg parent st, (st.resMap.map Prod.fst).Nodup →
      (((resolveGraph meta fuel pkg parent st).1.resMap.map Prod.fst)).Nodup := by
  intro fuel
  induction fuel with
  | zero => intro pkg parent st h; simpa [resolveGraph] using h
  | succ n ih =>
      intro pkg parent st h
      simpa [resolveGraph] using
        resolveStep_nodup meta (resolveGraph meta n) pkg parent st
          (fun d st0 hh => ih d pkg st0 hh) h

/-- Number of formula-table keys not yet in the session cache: the measure
that strictly decreases whenever the resolver recurses into dependencies. -/
def uncached (meta : List (String × Formula)) (st : RState) : Nat :=
  ((meta.map Prod.fst).toFinset.filter (fun n => alookup st.cache n = none)).card

theorem uncached_le (meta : List (String × Formula)) (st : RState) :
    uncached meta st ≤ meta.length := by
  calc ((meta.map Prod.fst).toFinset.filter (fun n => alookup st.cache n = none)).card
      ≤ (meta.map Prod.fst).toFinset.card := Finset.card_filter_le _ _
    _ ≤ (meta.map Prod.fst).length := List.toFinset_card_le _
    _ = meta.length := List.length_map _ _

theorem uncached_mono {meta : List (String × Formula)} {st st' : RState}
    (h : ∀ p r, alookup st.cache p = some r → alookup st'.cache p = some r) :
    uncached meta st' ≤ uncached meta st := by
  apply Finset.card_le_card
  intro n hn
  rw [Finset.mem_filter] at hn ⊢
  refine ⟨hn.1, ?_⟩
  rcases hx : alookup st.cache n with _ | v
  · rfl
  · have := h n v hx
    rw [this] at hn
    exact absurd hn.2 (by simp)

theorem uncached_insert_lt {meta : List (String × Formula)} {st : RState}
    {pkg : String} {data : Formula} (rm : RMap) (r : RRes)
    (hmiss : alookup st.cache pkg = none) (hmeta : alookup meta pkg = some data) :
    uncached meta ⟨rm, st.cache ++ [(pkg, r)]⟩ < uncached meta st := by
  have hset : ((meta.map Prod.fst).toFinset.filter
        (fun n => alookup (st.cache ++ [(pkg, r)]) n = none)) =
      ((meta.map Prod.fst).toFinset.filter
        (fun n => alookup st.cache n = none)).erase pkg := by
    ext n
    rw [Finset.mem_erase, Finset.mem_filter, Finset.mem_filter]
    constructor
    · intro ⟨h1, h2⟩
      rcases hx : alookup st.cache n with _ | v
      · have h3 := alookup_append_none [(pkg, r)] hx
        rw [h3] at h2
        by_cases hpn : pkg = n
        · subst hpn
          simp [alookup] at h2
        · exact ⟨fun hnp => hpn hnp.symm, h1, rfl⟩
      · rw [alookup_append_some hx] at h2
        exact absurd h2 (by simp)
    · intro ⟨h1, h2, h3⟩
      refine ⟨h2, ?_⟩
      rw [alookup_append_none [(pkg, r)] h3]
      have : ¬ pkg = n := fun h => h1 h.symm
      simp [alookup, this]
  show ((meta.map Prod.fst).toFinset.filter
      (fun n => alookup (st.cache ++ [(pkg, r)]) n = none)).card < uncached meta st
  rw [hset]
  apply Finset.card_erase_lt_of_mem
  rw [Finset.mem_filter]
  exact ⟨List.mem_toFinset.mpr (alookup_some_mem_keys hmeta), hmiss⟩

theorem depsFold_nofuel (meta : List (String × Formula))
    (f : String → RState → RState × Option RErr) (B : Nat)
    (hf1 : ∀ d st0, uncached meta st0 < B → (f d st0).2 ≠ some .outOfFuel)
    (hf2 : ∀ d st0, uncached meta (f d st0).1 ≤ uncached meta st0) :
    ∀ ds st, uncached meta st < B → (depsFold f ds st).2 ≠ some .outOfFuel := by
  intro ds
  induction ds with
  | nil => intro st h; simp [depsFold]
  | cons d ds ih =>
      intro st h
      rcases hfd : f d st with ⟨st1, e⟩
      cases e with
      | none =>
          have hle := hf2 d st
          rw [hfd] at hle
          simpa [depsFold, hfd] using ih st1 (lt_of_le_of_lt hle h)
      | some err =>
          have := hf1 d st h
          rw [hfd] at this
          simpa [depsFold, hfd] using this

theorem resolveGraph_nofuel (meta : List (String × Formula)) :
    ∀ fuel pkg parent st, uncached meta st < fuel →
      (resolveGraph meta fuel pkg parent st).2 ≠ some .outOfFuel := by
  intro fuel
  induction fuel with
  | zero => intro pkg parent st h; exact absurd h (by simp)
  | succ n ih =>
      intro pkg parent st h
      rcases hc : alookup st.cache pkg with _ | cached
      · rcases hm : alookup meta pkg with _ | data
        · simp [resolveGraph, resolveStep, hc, hm]
        · by_cases hrm : (alookup st.resMap pkg).isSome
          · simp [resolveGraph, resolveStep, hc, hm, hrm]
          · have hlt : uncached meta
                ⟨st.resMap ++ [(pkg, ⟨data.version, parent, data.dependencies⟩)],
                 st.cache ++ [(pkg, ⟨data.version, parent, data.dependencies⟩)]⟩ < n :=
              lt_of_lt_of_le (uncached_insert_lt _ _ hc hm) (Nat.lt_succ_iff.mp h)
            have hfold := depsFold_nofuel meta
              (fun d st' => resolveGraph meta n d pkg st') n
              (fun d st0 hlt0 => ih d pkg st0 hlt0)
              (fun d st0 => uncached_mono (resolveGraph_preserve meta n d pkg st0).2)
              data.dependencies _ hlt
            simpa [resolveGraph, resolveStep, hc, hm, hrm] using hfold
      · by_cases hrm : (alookup st.resMap pkg).isNone
        · simp [resolveGraph, resolveStep, hc, hrm]
        · simp [resolveGraph, resolveStep, hc, hrm]

theorem resolveRoots_nofuel (meta : List (String × Formula)) (roots : List String)
    (c0 : RMap) :
    (resolveRoots meta (meta.length + 1) roots ⟨[], c0⟩).2 ≠ some .outOfFuel := by
  apply depsFold_nofuel meta _ (meta.length + 1)
  · intro d st0 h
    exact resolveGraph_nofuel meta (meta.length + 1) d "User Request" st0 h
  · intro d st0
    exact uncached_mono (resolveGraph_preserve meta (meta.length + 1) d "User Request" st0).2
  · exact Nat.lt_succ_of_le (uncached_le meta _)

theorem resolveGraph_adds_with_parent (meta : List (String × Formula)) (fuel : Nat)
    (pkg parent : String) (st : RState) (data : Formula)
    (hc : alookup st.cache pkg = none) (hm : alookup meta pkg = some data)
    (habs : alookup st.resMap pkg = none) :
    alookup (resolveGraph meta (fuel + 1) pkg parent st).1.resMap pkg =
      some ⟨data.version, parent, data.dependencies⟩ := by
  have hrm : ¬ (alookup st.resMap pkg).isSome := by simp [habs]
  have hst1 : alookup
      (st.resMap ++ [(pkg, (⟨data.version, parent, data.dependencies⟩ : RRes))]) pkg =
      some ⟨data.version, parent, data.dependencies⟩ := by
    rw [alookup_append_none _ habs]
    simp [alookup]
  have hp := (depsFold_preserve (fun d st' => resolveGraph meta fuel d pkg st')
      (fun d st0 => resolveGraph_preserve meta fuel d pkg st0) data.dependencies
      ⟨st.resMap ++ [(pkg, ⟨data.version, parent, data.dependencies⟩)],
       st.cache ++ [(pkg, ⟨data.version, parent, data.dependencies⟩)]⟩).1 pkg
      ⟨data.version, parent, data.dependencies⟩ hst1
  simpa [resolveGraph, resolveStep, hc, hm, hrm] using hp

theorem resolveGraph_mem_of_ok (meta : List (String × Formula)) :
    ∀ fuel pkg parent st st', resolveGraph meta fuel pkg parent st = (st', none) →
      (alookup st'.resMap pkg).isSome := by
  intro fuel
  cases fuel with
  | zero =>
      intro pkg parent st st' h
      simp [resolveGraph] at h
  | succ n =>
      intro pkg parent st st' h
      rcases hc : alookup st.cache pkg with _ | cached
      · rcases hm : alookup meta pkg with _ | data
        · rw [show resolveGraph meta (n + 1) = resolveStep meta (resolveGraph meta n)
              from rfl] at h
          simp [resolveStep, hc, hm] at h
        · by_cases hrm : (alookup st.resMap pkg).isSome
          · rw [show resolveGraph meta (n + 1) = resolveStep meta (resolveGraph meta n)
                from rfl] at h
            simp [resolveStep, hc, hm, hrm] at h
            rw [← h]
            exact hrm
          · have habs : alookup st.resMap pkg = none := by
              rcases hx : alookup st.resMap pkg with _ | v
              · rfl
              · rw [hx] at hrm; simp at hrm
            have hget := resolveGraph_adds_with_parent meta n pkg parent st data hc hm habs
            have h1 : (resolveGraph meta (n + 1) pkg parent st).1 = st' := by
              rw [h]
            rw [h1] at hget
            simp [hget]
      · by_cases hrm : (alookup st.resMap pkg).isNone
        · rw [show resolveGraph meta (n + 1) = resolveStep meta (resolveGraph meta n)
              from rfl] at h
          simp [resolveStep, hc, hrm] at h
          have hlook : alookup (st.resMap ++ [(pkg, cached)]) pkg = some cached := by
            have habs : alookup st.resMap pkg = none := by
              rcases hx : alookup st.resMap pkg with _ | v
              · rfl
              · rw [hx] at hrm; simp at hrm
            rw [alookup_append_none _ habs]
            simp [alookup]
          have hin := addCachedDeps_preserve st.cache cached.dependencies
            (st.resMap ++ [(pkg, cached)]) pkg cached hlook
          rw [← h]
          simp [hin]
        · rw [show resolveGraph meta (n + 1) = resolveStep meta (resolveGraph meta n)
              from rfl] at h
          simp [resolveStep, hc, hrm] at h
          rw [← h]
          rcases hx : alookup st.resMap pkg with _ | v
          · rw [hx] at hrm; simp at hrm
          · simp [hx]

/-! ### Claim C3 -/

/-- Claim C3: for every formula table and every set of roots, resolution
terminates - with fuel one more than the table size it can never run out,
even on cyclic dependency graphs, because a package already placed is not
revisited; a finished resolution has a plan whose keys are duplicate
free (each package appears exactly once); an entry already in the plan is
never overwritten by later resolution, so a package reached via several
paths keeps the requested_by of the first reach; a package first reached
from parent is recorded with requested_by equal to that parent (roots
carry the sentinel handed in by install, the literal User Request); and
every successfully resolved package is present in the plan. -/
theorem resolve_terminates_unique_first_parent (meta : List (String × Formula)) :
    (∀ roots c0, (resolveRoots meta (meta.length + 1) roots ⟨[], c0⟩).2 ≠
      some .outOfFuel) ∧
    (∀ roots c0,
      ((resolveRoots meta (meta.length + 1) roots ⟨[], c0⟩).1.resMap.map Prod.fst).Nodup) ∧
    (∀ fuel pkg parent st p r, alookup st.resMap p = some r →
      alookup (resolveGraph meta fuel pkg parent st).1.resMap p = some r) ∧
    (∀ fuel pkg parent st data, alookup st.cache pkg = none →
      alookup meta pkg = some data → alookup st.resMap pkg = none →
      alookup (resolveGraph meta (fuel + 1) pkg parent st).1.resMap pkg =
        some ⟨data.version, parent, data.dependencies⟩) ∧
    (∀ fuel pkg parent st st', resolveGraph meta fuel pkg parent st = (st', none) →
      (alookup st'.resMap pkg).isSome) := by
  refine ⟨fun roots c0 => resolveRoots_nofuel meta roots c0, fun roots c0 => ?_,
    fun fuel pkg parent st p r h => (resolveGraph_preserve meta fuel pkg parent st).1 p r h,
    fun fuel pkg parent st data hc hm habs =>
      resolveGraph_adds_with_parent meta fuel pkg parent st data hc hm habs,
    fun fuel pkg parent st st' h => resolveGraph_mem_of_ok meta fuel pkg parent st st' h⟩
  exact depsFold_nodup _
    (fun d st0 hh => resolveGraph_nodup meta (meta.length + 1) d "User Request" st0 hh)
    roots ⟨[], c0⟩ (by simp)

/-- A cyclic two-package dependency graph: a needs b and b needs a. -/
def metaCyc : List (String × Formula) :=
  [("a", ⟨"1", ["b"], []⟩), ("b", ⟨"1", ["a"], []⟩)]

/-- Witness for C3 on the cyclic graph: resolution of root a finishes
without running out of fuel, the plan keys are duplicate free, and the
entry for a carries the user-request sentinel of its first reach. -/
theorem resolve_terminates_unique_first_parent_witness :
    (resolveRoots metaCyc 3 ["a"] ⟨[], []⟩).2 ≠ some .outOfFuel ∧
    ((resolveRoots metaCyc 3 ["a"] ⟨[], []⟩).1.resMap.map Prod.fst).Nodup ∧
    alookup (resolveGraph metaCyc 3 "a" "User Request" ⟨[], []⟩).1.resMap "a" =
      some ⟨"1", "User Request", ["b"]⟩ := by
  have h := resolve_terminates_unique_first_parent metaCyc
  exact ⟨h.1 ["a"] [], h.2.1 ["a"] [],
    h.2.2.2.1 2 "a" "User Request" ⟨[], []⟩ ⟨"1", ["b"], []⟩ rfl rfl rfl⟩

/-! ### Worker and orchestrator lemmas (towards claims C2, C6, C7) -/

/-- The worker's outcome classification does not depend on the incoming
filesystem: every branch condition reads only the environment and the
task.  One worker's success or failure is therefore unaffected by what
other workers did before it. -/
theorem workerStep_outcome_indep (env : Env) (pkg version : String) (fs : FS) :
    (workerStep env pkg version fs).1 = workerOutcomeOf env pkg version := by
  unfold workerOutcomeOf
  rcases hm : alookup env.meta pkg with _ | data
  · simp [workerStep, hm]
  · rcases hb : alookup data.bottleFiles env.flavor with _ | bottle
    · simp [workerStep, hm, hb]
    · by_cases ht : env.tokenOk pkg
      · rcases hd : tryDownload (env.download bottle.url) 0 RETRY_ATTEMPTS with _ | bytes
        · simp [workerStep, hm, hb, ht, hd]
        · by_cases hh : env.hash bytes = bottle.sha256
          · rcases hu : env.untar bytes with _ | tree
            · simp [workerStep, hm, hb, ht, hd, hh, hu]
            · rcases hp : payloadRoot tree pkg version with _ | children
              · simp [workerStep, hm, hb, ht, hd, hh, hu, hp]
              · rcases hl : collectLinks pkg version children with _ | links
                · simp [workerStep, hm, hb, ht, hd, hh, hu, hp, hl]
                · simp [workerStep, hm, hb, ht, hd, hh, hu, hp, hl]
          · simp [workerStep, hm, hb, ht, hd, hh]
      · simp [workerStep, hm, hb, ht]

theorem runWorkers_results (env : Env) (ts : List (String × String)) (fs : FS) :
    (runWorkers env ts fs).1 = ts.map (fun t => (t.1, workerOutcomeOf env t.1 t.2)) := by
  induction ts generalizing fs with
  | nil => rfl
  | cons t rest ih =>
      simp [runWorkers, workerStep_outcome_indep, ih]

theorem commitResults_lookup_of_no_success (inv : Inventory)
    (rs : List (String × WorkerOutcome)) (p : String)
    (h : ∀ v links, (p, WorkerOutcome.success v links) ∉ rs) :
    alookup (commitResults inv rs) p = alookup inv p := by
  induction rs generalizing inv with
  | nil => rfl
  | cons hd tl ih =>
      rcases hd with ⟨q, o⟩
      cases o with
      | success v links =>
          have hq : ¬ q = p := by
            intro hqp
            subst hqp
            exact h v links (List.mem_cons_self _ _)
          have htl : ∀ v links, (p, WorkerOutcome.success v links) ∉ tl :=
            fun v links hm => h v links (List.mem_cons_of_mem _ hm)
          rw [show commitResults inv ((q, WorkerOutcome.success v links) :: tl) =
            commitResults (aset inv q ⟨v, "Cellar/" ++ q ++ "/" ++ v, links⟩) tl from rfl]
          rw [ih _ htl, alookup_aset]
          simp [hq]
      | noMetadata =>
          have htl : ∀ v links, (p, WorkerOutcome.success v links) ∉ tl :=
            fun v links hm => h v links (List.mem_cons_of_mem _ hm)
          simpa [commitResults] using ih inv htl
      | noBottle =>
          have htl : ∀ v links, (p, WorkerOutcome.success v links) ∉ tl :=
            fun v links hm => h v links (List.mem_cons_of_mem _ hm)
          simpa [commitResults] using ih inv htl
      | failed msg =>
          have htl : ∀ v links, (p, WorkerOutcome.success v links) ∉ tl :=
            fun v links hm => h v links (List.mem_cons_of_mem _ hm)
          simpa [commitResults] using ih inv htl

theorem commitResults_isSome_mono (inv : Inventory)
    (rs : List (String × WorkerOutcome)) (p : String)
    (h : (alookup inv p).isSome) : (alookup (commitResults inv rs) p).isSome := by
  induction rs generalizing inv with
  | nil => exact h
  | cons hd tl ih =>
      rcases hd with ⟨q, o⟩
      cases o with
      | success v links =>
          refine ih _ ?_
          rw [alookup_aset]
          by_cases hq : q = p
          · simp [hq]
          · simpa [hq] using h
      | noMetadata => exact ih inv h
      | noBottle => exact ih inv h
      | failed msg => exact ih inv h

theorem commitResults_isSome_of_mem_success (inv : Inventory)
    (rs : List (String × WorkerOutcome)) (p : String) (v : String)
    (links : List String) (hmem : (p, WorkerOutcome.success v links) ∈ rs) :
    (alookup (commitResults inv rs) p).isSome := by
  induction rs generalizing inv with
  | nil => simp at hmem
  | cons hd tl ih =>
      rcases List.mem_cons.mp hmem with heq | htl
      · rw [← heq]
        refine commitResults_isSome_mono _ tl p ?_
        rw [alookup_aset]
        simp
      · rcases hd with ⟨q, o⟩
        cases o with
        | success w ls => exact ih _ htl
        | noMetadata => exact ih inv htl
        | noBottle => exact ih inv htl
        | failed msg => exact ih inv htl

theorem nodup_keys_mem_unique {κ β : Type} [DecidableEq κ] {l : List (κ × β)} {p : κ}
    {a b : β} (h : (l.map Prod.fst).Nodup) (ha : (p, a) ∈ l) (hb : (p, b) ∈ l) :
    a = b := by
  induction l with
  | nil => simp at ha
  | cons hd tl ih =>
      rcases hd with ⟨k1, v1⟩
      simp only [List.map_cons, List.nodup_cons] at h
      rcases List.mem_cons.mp ha with ha1 | ha1 <;> rcases List.mem_cons.mp hb with hb1 | hb1
      · have e1 : a = v1 := congrArg Prod.snd ha1
        have e2 : b = v1 := congrArg Prod.snd hb1
        rw [e1, e2]
      · have e1 : k1 = p := (congrArg Prod.fst ha1).symm
        have : p ∈ tl.map Prod.fst := List.mem_map.mpr ⟨(p, b), hb1, rfl⟩
        exact absurd (e1 ▸ this) h.1
      · have e1 : k1 = p := (congrArg Prod.fst hb1).symm
        have : p ∈ tl.map Prod.fst := List.mem_map.mpr ⟨(p, a), ha1, rfl⟩
        exact absurd (e1 ▸ this) h.1
      · exact ih h.2 ha1 hb1

theorem install_results_eq (env : Env) (inv : Inventory) (fs : FS) (sc : RMap)
    (names : List String) (force : Bool) :
    (install env inv fs sc names force).results =
      (install env inv fs sc names force).tasks.map
        (fun t => (t.1, workerOutcomeOf env t.1 t.2)) := by
  rcases hres : resolveRoots env.meta (env.meta.length + 1) names ⟨[], sc⟩ with ⟨rst, e⟩
  cases e with
  | some err => simp [install, hres]
  | none =>
      by_cases hemp : (if force then rst.resMap
          else rst.resMap.filter (fun nd => (alookup inv nd.1).isNone)).isEmpty
      · simp [install, hres, hemp]
      · simp [install, hres, hemp, runWorkers_results]

theorem install_tasks_keys_nodup (env : Env) (inv : Inventory) (fs : FS) (sc : RMap)
    (names : List String) (force : Bool) :
    (((install env inv fs sc names force).tasks.map Prod.fst)).Nodup := by
  rcases hres : resolveRoots env.meta (env.meta.length + 1) names ⟨[], sc⟩ with ⟨rst, e⟩
  have hplan : (rst.resMap.map Prod.fst).Nodup := by
    have h : ((resolveRoots env.meta (env.meta.length + 1) names
        ⟨[], sc⟩).1.resMap.map Prod.fst).Nodup :=
      depsFold_nodup _
        (fun d st0 hh =>
          resolveGraph_nodup env.meta (env.meta.length + 1) d "User Request" st0 hh)
        names ⟨[], sc⟩ (by simp)
    rw [hres] at h
    exact h
  have hkeys : ∀ (l : List (String × RRes)),
      (l.map (fun nd => (nd.1, nd.2.version))).map Prod.fst = l.map Prod.fst := by
    intro l
    simp [List.map_map]
  have hgen : ∀ (l : List (String × RRes)), List.Sublist l rst.resMap →
      ((l.map (fun nd => (nd.1, nd.2.version))).map Prod.fst).Nodup := by
    intro l hsub
    rw [hkeys l]
    exact hplan.sublist (hsub.map Prod.fst)
  cases e with
  | some err => simp [install, hres]
  | none =>
      simp only [install, hres]
      split
      · split
        · simp
        · simpa [List.map_map] using hgen rst.resMap (List.Sublist.refl _)
      · split
        · simp
        · simpa [List.map_map] using hgen _ (List.filter_sublist _)

theorem install_inventory_eq_commit (env : Env) (inv : Inventory) (fs : FS) (sc : RMap)
    (names : List String) (force : Bool) :
    (install env inv fs sc names force).inventory =
      commitResults inv (install env inv fs sc names force).results := by
  rcases hres : resolveRoots env.meta (env.meta.length + 1) names ⟨[], sc⟩ with ⟨rst, e⟩
  cases e with
  | some err => simp [install, hres, commitResults]
  | none =>
      simp only [install, hres]
      split
      · split
        · simp [commitResults]
        · simp
      · split
        · simp [commitResults]
        · simp

theorem install_inventory_unchanged_of_not_success (env : Env) (inv : Inventory)
    (fs : FS) (sc : RMap) (names : List String) (force : Bool) (pkg ver : String)
    (hmem : (pkg, ver) ∈ (install env inv fs sc names force).tasks)
    (hout : ∀ v links, workerOutcomeOf env pkg ver ≠ WorkerOutcome.success v links) :
    alookup (install env inv fs sc names force).inventory pkg = alookup inv pkg := by
  have hres := install_results_eq env inv fs sc names force
  have hnd := install_tasks_keys_nodup env inv fs sc names force
  have hno : ∀ v links,
      (pkg, WorkerOutcome.success v links) ∉ (install env inv fs sc names force).results := by
    intro v links hmem2
    rw [hres] at hmem2
    rcases List.mem_map.mp hmem2 with ⟨t, htmem, hteq⟩
    have h1 : t.1 = pkg := congrArg Prod.fst hteq
    have h2 : workerOutcomeOf env t.1 t.2 = .success v links := congrArg Prod.snd hteq
    have ht' : (pkg, t.2) ∈ (install env inv fs sc names force).tasks := by
      rw [← h1]
      simpa using htmem
    have hv : t.2 = ver := nodup_keys_mem_unique hnd ht' hmem
    rw [h1, hv] at h2
    exact hout v links h2
  rw [install_inventory_eq_commit]
  exact commitResults_lookup_of_no_success inv _ pkg hno

/-! ### Claim C2 -/

/-- Claim C2: for an install worker whose downloaded tarball hashes to a
digest different from the expected sha256 of the bottle entry: the worker
writes the tarball, detects the mismatch, deletes the tarball and fails
with the integrity error, touching neither the Cellar nor the shared bin
links; afterwards no tarball file remains under the task's name; the
invocation creates no inventory entry for that package (its binding is
exactly what it was before); and every worker's recorded outcome is the
filesystem-independent function of the environment and its own task, so
the other workers of the invocation are unaffected. -/
theorem sha_mismatch_worker_spec (env : Env) (inv : Inventory) (fs0 : FS) (sc : RMap)
    (names : List String) (force : Bool) (pkg ver : String) (data : Formula)
    (bottle : Bottle) (bytes : Bytes)
    (hmeta : alookup env.meta pkg = some data)
    (hbot : alookup data.bottleFiles env.flavor = some bottle)
    (htok : env.tokenOk pkg = true)
    (hdl : tryDownload (env.download bottle.url) 0 RETRY_ATTEMPTS = some bytes)
    (hsha : env.hash bytes ≠ bottle.sha256) :
    (∀ fs : FS, workerStep env pkg ver fs =
      (.failed "sha256",
       ⟨aremove (aset fs.tarballs (pkg ++ "_" ++ ver ++ ".tar.gz") bytes)
          (pkg ++ "_" ++ ver ++ ".tar.gz"), fs.cellar, fs.binLinks⟩)) ∧
    (∀ fs : FS, alookup (workerStep env pkg ver fs).2.tarballs
      (pkg ++ "_" ++ ver ++ ".tar.gz") = none) ∧
    ((pkg, ver) ∈ (install env inv fs0 sc names force).tasks →
      alookup (install env inv fs0 sc names force).inventory pkg = alookup inv pkg) ∧
    ((install env inv fs0 sc names force).results =
      (install env inv fs0 sc names force).tasks.map
        (fun t => (t.1, workerOutcomeOf env t.1 t.2))) := by
  have hstep : ∀ fs : FS, workerStep env pkg ver fs =
      (.failed "sha256",
       ⟨aremove (aset fs.tarballs (pkg ++ "_" ++ ver ++ ".tar.gz") bytes)
          (pkg ++ "_" ++ ver ++ ".tar.gz"), fs.cellar, fs.binLinks⟩) := by
    intro fs
    simp [workerStep, hmeta, hbot, htok, hdl, hsha]
  refine ⟨hstep, fun fs => ?_, fun hmem => ?_, install_results_eq env inv fs0 sc names force⟩
  · rw [hstep fs]
    rw [alookup_aremove]
    simp
  · refine install_inventory_unchanged_of_not_success env inv fs0 sc names force pkg ver
      hmem (fun v links => ?_)
    have h1 : workerOutcomeOf env pkg ver = .failed "sha256" := by
      unfold workerOutcomeOf
      rw [hstep ⟨[], [], []⟩]
    rw [h1]
    simp

/-- Environment for the C2 witness: one formula with a bottle for the
current flavor, a download that yields one byte, and a digest function
returning a value different from the expected sha256. -/
def envC2 : Env :=
  { meta := [("p", ⟨"1", [], [("fl", ⟨"u", "good"⟩)]⟩)], flavor := "fl",
    tokenOk := fun _ => true, download := fun _ _ => some [1],
    hash := fun _ => "bad", untar := fun _ => none }

/-- Witness for C2: the worker fails with the integrity error, its tarball
is gone, and the inventory gains no entry for the package. -/
theorem sha_mismatch_worker_spec_witness :
    (workerStep envC2 "p" "1" ⟨[], [], []⟩).1 = .failed "sha256" ∧
    alookup (workerStep envC2 "p" "1" ⟨[], [], []⟩).2.tarballs "p_1.tar.gz" = none ∧
    alookup (install envC2 [] ⟨[], [], []⟩ [] ["p"] false).inventory "p" = none := by
  have h := sha_mismatch_worker_spec envC2 [] ⟨[], [], []⟩ [] ["p"] false "p" "1"
    ⟨"1", [], [("fl", ⟨"u", "good"⟩)]⟩ ⟨"u", "good"⟩ [1] rfl rfl rfl rfl (by decide)
  refine ⟨by rw [h.1 ⟨[], [], []⟩], ?_, ?_⟩
  · exact h.2.1 ⟨[], [], []⟩
  · have h3 := h.2.2.1 (by decide)
    simpa using h3

/-! ### Claim C6 -/

/-- Claim C6: an install worker whose package metadata has no bottle file
entry for the current OS flavor reports the skip and returns without
raising: the filesystem is returned exactly as it was (no download, no
tarball, no Cellar directory, no links), the invocation creates no
inventory entry for that package, and every worker's outcome remains the
filesystem-independent function of its own task, so the invocation is not
failed by the skip. -/
theorem no_bottle_skip_spec (env : Env) (inv : Inventory) (fs0 : FS) (sc : RMap)
    (names : List String) (force : Bool) (pkg ver : String) (data : Formula)
    (hmeta : alookup env.meta pkg = some data)
    (hbot : alookup data.bottleFiles env.flavor = none) :
    (∀ fs : FS, workerStep env pkg ver fs = (.noBottle, fs)) ∧
    ((pkg, ver) ∈ (install env inv fs0 sc names force).tasks →
      alookup (install env inv fs0 sc names force).inventory pkg = alookup inv pkg) ∧
    ((install env inv fs0 sc names force).results =
      (install env inv fs0 sc names force).tasks.map
        (fun t => (t.1, workerOutcomeOf env t.1 t.2))) := by
  have hstep : ∀ fs : FS, workerStep env pkg ver fs = (.noBottle, fs) := by
    intro fs
    simp [workerStep, hmeta, hbot]
  refine ⟨hstep, fun hmem => ?_, install_results_eq env inv fs0 sc names force⟩
  refine install_inventory_unchanged_of_not_success env inv fs0 sc names force pkg ver
    hmem (fun v links => ?_)
  have h1 : workerOutcomeOf env pkg ver = .noBottle := by
    unfold workerOutcomeOf
    rw [hstep ⟨[], [], []⟩]
  rw [h1]
  simp

/-- Environment for the C6 witness: metadata for p exists but its bottle
map has no entry for the current flavor. -/
def envC6 : Env :=
  { meta := [("p", ⟨"1", [], []⟩)], flavor := "fl",
    tokenOk := fun _ => true, download := fun _ _ => none,
    hash := fun _ => "", untar := fun _ => none }

/-- Witness for C6: the worker returns the skip with the filesystem
untouched and the inventory stays empty. -/
theorem no_bottle_skip_spec_witness :
    workerStep envC6 "p" "1" ⟨[], [], []⟩ = (.noBottle, ⟨[], [], []⟩) ∧
    alookup (install envC6 [] ⟨[], [], []⟩ [] ["p"] false).inventory "p" = none := by
  have h := no_bottle_skip_spec envC6 [] ⟨[], [], []⟩ [] ["p"] false "p" "1"
    ⟨"1", [], []⟩ rfl rfl
  refine ⟨h.1 ⟨[], [], []⟩, ?_⟩
  have h2 := h.2.1 (by decide)
  simpa using h2

/-! ### Claim C8 -/

theorem foldl_aremove_preserve_none {κ β : Type} [DecidableEq κ]
    (ls : List κ) (m : List (κ × β)) (l : κ) (h : alookup m l = none) :
    alookup (ls.foldl (fun acc k => aremove acc k) m) l = none := by
  induction ls generalizing m with
  | nil => exact h
  | cons k ks ih =>
      refine ih _ ?_
      rw [alookup_aremove]
      by_cases hk : k = l
      · simp [hk]
      · simpa [hk] using h

theorem foldl_aremove_mem {κ β : Type} [DecidableEq κ]
    (ls : List κ) (m : List (κ × β)) (l : κ) (h : l ∈ ls) :
    alookup (ls.foldl (fun acc k => aremove acc k) m) l = none := by
  induction ls generalizing m with
  | nil => simp at h
  | cons k ks ih =>
      rcases List.mem_cons.mp h with h1 | h1
      · subst h1
        refine foldl_aremove_preserve_none ks _ l ?_
        rw [alookup_aremove]
        simp
      · exact ih _ h1

theorem alookup_cellar_filter_none (cl : List ((String × String) × FTree))
    (name ver : String) :
    alookup (cl.filter (fun kv => kv.1.1 ≠ name)) (name, ver) = none := by
  apply alookup_none_of_not_mem_keys
  intro hmem
  rcases List.mem_map.mp hmem with ⟨kv, hkv, hfst⟩
  have hp := List.of_mem_filter hkv
  rw [hfst] at hp
  simp at hp

/-- Claim C8: uninstalling an installed package removes every symlink
listed in its inventory entry from the shared bin directory, removes the
whole Cellar directory of that package (every version), removes the
inventory entry and invalidates the metadata cache entry; running
uninstall again for the same name reports it as not installed and leaves
inventory, filesystem and cache exactly unchanged. -/
theorem uninstall_spec (inv : Inventory) (fs : FS) (c : MetaCache) (name : String)
    (e : InvEntry) (h : alookup inv name = some e) :
    (∀ l ∈ e.symlinks,
      alookup (uninstall inv fs c [name] false true).fs.binLinks l = none) ∧
    (∀ ver, alookup (uninstall inv fs c [name] false true).fs.cellar (name, ver) = none) ∧
    alookup (uninstall inv fs c [name] false true).inventory name = none ∧
    alookup (uninstall inv fs c [name] false true).cache name = none ∧
    (uninstall inv fs c [name] false true).notFoundReported = false ∧
    (uninstall (uninstall inv fs c [name] false true).inventory
        (uninstall inv fs c [name] false true).fs
        (uninstall inv fs c [name] false true).cache [name] false true =
      ⟨true, (uninstall inv fs c [name] false true).inventory,
        (uninstall inv fs c [name] false true).fs,
        (uninstall inv fs c [name] false true).cache⟩) := by
  have hcase : uninstall inv fs c [name] false true =
      ⟨false, aremove inv name,
        ⟨fs.tarballs, fs.cellar.filter (fun kv => kv.1.1 ≠ name),
          e.symlinks.foldl (fun acc l => aremove acc l) fs.binLinks⟩,
        aremove c name⟩ := by
    simp [uninstall, h, uninstallLoop, uninstallOne, MetadataCache.invalidate]
  rw [hcase]
  refine ⟨fun l hl => foldl_aremove_mem e.symlinks fs.binLinks l hl,
    fun ver => alookup_cellar_filter_none fs.cellar name ver, ?_, ?_, rfl, ?_⟩
  · rw [alookup_aremove]; simp
  · rw [alookup_aremove]; simp
  · have hnone : alookup (aremove inv name) name = none := by
      rw [alookup_aremove]; simp
    simp [uninstall, hnone]

/-- Witness for C8 on a one-package state: symlink, Cellar tree, inventory
entry and cache entry all disappear, and the second uninstall reports not
installed without changing anything. -/
theorem uninstall_spec_witness :
    alookup (uninstall [("p", ⟨"1", "Cellar/p/1", ["ln"]⟩)]
        ⟨[], [(("p", "1"), [])], [("ln", "Cellar/p/1/bin/ln")]⟩
        [("p", ⟨f1, 0, 6⟩)] ["p"] false true).fs.binLinks "ln" = none ∧
    alookup (uninstall [("p", ⟨"1", "Cellar/p/1", ["ln"]⟩)]
        ⟨[], [(("p", "1"), [])], [("ln", "Cellar/p/1/bin/ln")]⟩
        [("p", ⟨f1, 0, 6⟩)] ["p"] false true).inventory "p" = none ∧
    alookup (uninstall [("p", ⟨"1", "Cellar/p/1", ["ln"]⟩)]
        ⟨[], [(("p", "1"), [])], [("ln", "Cellar/p/1/bin/ln")]⟩
        [("p", ⟨f1, 0, 6⟩)] ["p"] false true).cache "p" = none := by
  have h := uninstall_spec [("p", ⟨"1", "Cellar/p/1", ["ln"]⟩)]
    ⟨[], [(("p", "1"), [])], [("ln", "Cellar/p/1/bin/ln")]⟩
    [("p", ⟨f1, 0, 6⟩)] "p" ⟨"1", "Cellar/p/1", ["ln"]⟩ rfl
  exact ⟨h.1 "ln" (by decide), h.2.2.1, h.2.2.2.1⟩

/-! ### Claim C7 -/

/-- Counterexample to claim C7 as stated for every package: when the
first install of p dispatches a worker that skips (no bottle for the
flavor), p never enters the inventory, so the second install without
force dispatches p again - it is not a no-op and its install set is not
empty. -/
theorem install_twice_not_noop_counterexample :
    (install envC6 (install envC6 [] ⟨[], [], []⟩ [] ["p"] false).inventory
        (install envC6 [] ⟨[], [], []⟩ [] ["p"] false).fs [] ["p"] false).dispatched =
      ["p"] ∧
    (install envC6 (install envC6 [] ⟨[], [], []⟩ [] ["p"] false).inventory
        (install envC6 [] ⟨[], [], []⟩ [] ["p"] false).fs [] ["p"] false).tasks ≠ [] ∧
    (install envC6 (install envC6 [] ⟨[], [], []⟩ [] ["p"] false).inventory
        (install envC6 [] ⟨[], [], []⟩ [] ["p"] false).fs [] ["p"]
        false).noopAlreadyInstalled = false := by
  refine ⟨by decide, by decide, by decide⟩

/-- Claim C7 (amended): provided the first install invocation was not
aborted by resolution and every worker it dispatched succeeded, a second
install of the same roots without force is a no-op: the whole plan is
already in the inventory, the install set is empty, nothing is dispatched,
and the second call returns the inventory and filesystem unchanged,
reporting that everything is already installed. -/
theorem install_twice_noop_after_success (env : Env) (inv : Inventory) (fs : FS)
    (names : List String)
    (hab : (install env inv fs [] names false).aborted = none)
    (hsucc : ∀ p o, (p, o) ∈ (install env inv fs [] names false).results →
      ∃ v links, o = WorkerOutcome.success v links) :
    install env (install env inv fs [] names false).inventory
        (install env inv fs [] names false).fs [] names false =
      ⟨none, true, [], [], [],
        (install env inv fs [] names false).inventory,
        (install env inv fs [] names false).fs⟩ := by
  rcases hres : resolveRoots env.meta (env.meta.length + 1) names ⟨[], ([] : RMap)⟩
    with ⟨rst, e⟩
  cases e with
  | some err => simp [install, hres] at hab
  | none =>
      by_cases hemp : (rst.resMap.filter (fun nd => (alookup inv nd.1).isNone)).isEmpty
      · have hr1 : install env inv fs [] names false = ⟨none, true, [], [], [], inv, fs⟩ := by
          simp [install, hres, hemp]
        have hnil : rst.resMap.filter (fun nd => (alookup inv nd.1).isNone) = [] := by
          simpa [List.isEmpty_iff] using hemp
        rw [hr1]
        simp [install, hres, hnil]
      · have hr1 : install env inv fs [] names false =
            ⟨none, false,
              (rst.resMap.filter (fun nd => (alookup inv nd.1).isNone)).map
                (fun nd => (nd.1, nd.2.version)),
              ((rst.resMap.filter (fun nd => (alookup inv nd.1).isNone)).map
                (fun nd => (nd.1, nd.2.version))).map Prod.fst,
              (runWorkers env
                ((rst.resMap.filter (fun nd => (alookup inv nd.1).isNone)).map
                  (fun nd => (nd.1, nd.2.version))) fs).1,
              commitResults inv
                (runWorkers env
                  ((rst.resMap.filter (fun nd => (alookup inv nd.1).isNone)).map
                    (fun nd => (nd.1, nd.2.version))) fs).1,
              (runWorkers env
                ((rst.resMap.filter (fun nd => (alookup inv nd.1).isNone)).map
                  (fun nd => (nd.1, nd.2.version))) fs).2⟩ := by
          simp [install, hres, hemp]
        have hall : ∀ nd ∈ rst.resMap,
            (alookup (commitResults inv
              (runWorkers env
                ((rst.resMap.filter (fun nd => (alookup inv nd.1).isNone)).map
                  (fun nd => (nd.1, nd.2.version))) fs).1) nd.1).isSome := by
          intro nd hnd
          by_cases hin : (alookup inv nd.1).isSome
          · exact commitResults_isSome_mono _ _ _ hin
          · have hnone : (alookup inv nd.1).isNone = true := by
              rcases hx : alookup inv nd.1 with _ | v
              · rfl
              · rw [hx] at hin; simp at hin
            have hmemf : nd ∈ rst.resMap.filter (fun nd => (alookup inv nd.1).isNone) :=
              List.mem_filter.mpr ⟨hnd, hnone⟩
            have hmemt : (nd.1, nd.2.version) ∈
                (rst.resMap.filter (fun nd => (alookup inv nd.1).isNone)).map
                  (fun nd => (nd.1, nd.2.version)) :=
              List.mem_map.mpr ⟨nd, hmemf, rfl⟩
            have hmemres : (nd.1, workerOutcomeOf env nd.1 nd.2.version) ∈
                (runWorkers env
                  ((rst.resMap.filter (fun nd => (alookup inv nd.1).isNone)).map
                    (fun nd => (nd.1, nd.2.version))) fs).1 := by
              rw [runWorkers_results]
              exact List.mem_map.mpr ⟨(nd.1, nd.2.version), hmemt, rfl⟩
            obtain ⟨v, links, ho⟩ := hsucc nd.1 _ (by rw [hr1]; exact hmemres)
            have hsmem : (nd.1, WorkerOutcome.success v links) ∈
                (runWorkers env
                  ((rst.resMap.filter (fun nd => (alookup inv nd.1).isNone)).map
                    (fun nd => (nd.1, nd.2.version))) fs).1 := by
              rw [← ho]
              exact hmemres
            exact commitResults_isSome_of_mem_success inv _ nd.1 v links hsmem
        have hnil2 : rst.resMap.filter (fun nd =>
            (alookup (commitResults inv
              (runWorkers env
                ((rst.resMap.filter (fun nd => (alookup inv nd.1).isNone)).map
                  (fun nd => (nd.1, nd.2.version))) fs).1) nd.1).isNone) = [] := by
          refine List.filter_eq_nil_iff.mpr ?_
          intro nd hnd
          have := hall nd hnd
          rcases hx : alookup (commitResults inv
              (runWorkers env
                ((rst.resMap.filter (fun nd => (alookup inv nd.1).isNone)).map
                  (fun nd => (nd.1, nd.2.version))) fs).1) nd.1 with _ | v
          · rw [hx] at this; simp at this
          · simp [hx]
        rw [hr1]
        simp [install, hres, hnil2]

/-- Environment for the C7 witness: p has a bottle for the flavor, the
download succeeds, the digest matches, and the extracted tree carries one
executable under bin. -/
def envC7 : Env :=
  { meta := [("p", ⟨"1", [], [("fl", ⟨"u", "good"⟩)]⟩)], flavor := "fl",
    tokenOk := fun _ => true, download := fun _ _ => some [1],
    hash := fun _ => "good",
    untar := fun _ => some [("bin", .dir [("tool", .file)])] }

/-- Witness for the amended C7: after a fully successful install of p,
the second install of p without force is exactly the no-op result. -/
theorem install_twice_noop_after_success_witness :
    install envC7 (install envC7 [] ⟨[], [], []⟩ [] ["p"] false).inventory
        (install envC7 [] ⟨[], [], []⟩ [] ["p"] false).fs [] ["p"] false =
      ⟨none, true, [], [], [],
        (install envC7 [] ⟨[], [], []⟩ [] ["p"] false).inventory,
        (install envC7 [] ⟨[], [], []⟩ [] ["p"] false).fs⟩ := by
  apply install_twice_noop_after_success
  · rfl
  · intro p o h
    have hres : (install envC7 [] ⟨[], [], []⟩ [] ["p"] false).results =
        [("p", WorkerOutcome.success "1" ["tool"])] := by decide
    rw [hres] at h
    have hpo := List.mem_singleton.mp h
    exact ⟨"1", ["tool"], congrArg Prod.snd hpo⟩
